import Mathlib

/-!
Shallow embedding of `src/multi_strategy_convert.py`: the text-normalization
and structured-record extraction pipeline (text cleaner, pypdf newline repair,
block segmenter, field extractor, per-backend pipeline composition).

Text is modelled as `List Char`.  Python regular expressions are translated
into explicit deterministic matchers; where the regex engine's backtracking
is observable (greedy `\s+` runs at end of input) the matcher reproduces it
exactly.  All definitions are executable.
-/

/-- Characters treated as whitespace: Python's `\s` regex class and
`str.strip` on the ASCII range (the range the source document exercises). -/
def isPySpace (c : Char) : Bool :=
  c == ' ' || c == '\t' || c == '\n' || c == '\r' || c == '\x0b' || c == '\x0c'

/-- ASCII decimal digits: Python's `\d` on the digits the source uses. -/
def pyDigit (c : Char) : Bool := '0' ≤ c && c ≤ '9'

/-- The character list of a string literal. -/
def s2l (s : String) : List Char := s.data

/-- Python `str.strip()`: remove whitespace from both ends. -/
def stripL (l : List Char) : List Char :=
  ((l.dropWhile isPySpace).reverse.dropWhile isPySpace).reverse

/-- Python's `pat in text` substring test. -/
def containsSub (pat : List Char) : List Char → Bool
  | [] => pat.isEmpty
  | c :: rest => pat.isPrefixOf (c :: rest) || containsSub pat rest

/-- Python `re.split` on a single-character class given by predicate `p`
(also `str.split(sep)` with `p := (· == sep)`): splitting the empty text
yields one empty piece, and every separator occurrence ends a piece. -/
def pySplitP (p : Char → Bool) : List Char → List (List Char)
  | [] => [[]]
  | c :: rest =>
    match pySplitP p rest with
    | [] => [[c]]
    | h :: t => if p c then [] :: h :: t else (c :: h) :: t

/-- Python `"x".split('\n')`. -/
def pySplitNL (l : List Char) : List (List Char) := pySplitP (· == '\n') l

/-- Python `"\n".join(lines)`. -/
def pyJoinNL : List (List Char) → List Char
  | [] => []
  | [l] => l
  | l :: ls => l ++ '\n' :: pyJoinNL ls

/-- Maximal non-whitespace runs of a line (`go` carries the current run,
reversed). -/
def wsTokensGo : List Char → List Char → List (List Char)
  | acc, [] => if acc.isEmpty then [] else [acc.reverse]
  | acc, c :: rest =>
    if isPySpace c then
      if acc.isEmpty then wsTokensGo [] rest else acc.reverse :: wsTokensGo [] rest
    else wsTokensGo (c :: acc) rest

def wsTokens (l : List Char) : List (List Char) := wsTokensGo [] l

/-- The fixed three-symbol rating alphabet of the corrupted table rows. -/
def ratingChars : List Char := ['상', '중', '하']

/-- `re.match(r'^\s*[상중하](\s+[상중하])+\s*$', line)`: the whole line is
whitespace-separated tokens, each exactly one rating symbol, at least two of
them (the language of the regex is `\s* R (\s+ R)+ \s*`, i.e. every maximal
non-whitespace run is a single rating symbol and there are at least two). -/
def isRatingRow (line : List Char) : Bool :=
  decide (2 ≤ (wsTokens line).length) &&
    (wsTokens line).all (fun t => t == ['상'] || t == ['중'] || t == ['하'])

/-- `re.match(r'^[상중하]{5,}$', line.strip())`: after stripping, the line is
five or more rating symbols and nothing else. -/
def isClumpedRow (line : List Char) : Bool :=
  decide (5 ≤ (stripL line).length) && (stripL line).all (· ∈ ratingChars)

/-- The per-line noise test of `clean_text`: known table-row phrases,
whitespace-separated rating rows, and clumped rating rows. -/
def isNoiseLine (line : List Char) : Bool :=
  containsSub (s2l "사랑 돈 사업") line || containsSub (s2l "승진 취업 매매") line ||
    containsSub (s2l "사랑돈사업") line || isRatingRow line || isClumpedRow line

/-- `clean_text`: drop noise lines, rejoin, strip the result. -/
def clean_text (text : List Char) : List Char :=
  if text.isEmpty then []
  else stripL (pyJoinNL ((pySplitNL text).filter (fun l => !isNoiseLine l)))

example : clean_text (s2l "상 중 하 상 중") = [] := by decide
example : clean_text (s2l "상품 가격은 상한선") = s2l "상품 가격은 상한선" := by decide
example : clean_text (s2l "a\n사랑 돈 사업 x\n  b  \n상상상상상\nc") = s2l "a\n  b  \nc" := by decide
example : clean_text (s2l " \n x\n상 중\n") = s2l "x" := by decide

/-- The word alternatives of the pypdf header pattern
`\d+\.\s+(?:\d+|Ace|...|검)\s+` (the `\d+` alternative is handled
separately).  No alternative is a prefix of another and none starts with a
digit, so at most one can match at a given position. -/
def altWords : List (List Char) :=
  [s2l "Ace", s2l "Two", s2l "Three", s2l "Four", s2l "Five", s2l "Six",
   s2l "Seven", s2l "Eight", s2l "Nine", s2l "Ten", s2l "Page", s2l "Knight",
   s2l "Queen", s2l "King", s2l "컵", s2l "지팡이", s2l "동전", s2l "검"]

/-- Match the alternation `(?:\d+|Ace|...|검)` at the head of `l`, returning
the matched length.  A digit start takes the maximal digit run (shortening it
can never help, since `\s+` must follow and digits are not whitespace). -/
def matchAlt (l : List Char) : Option Nat :=
  match l with
  | [] => none
  | c :: _ =>
    if pyDigit c then some (l.takeWhile pyDigit).length
    else (altWords.find? (fun w => w.isPrefixOf l)).map List.length

/-- Match the pypdf header pattern `\d+\.\s+(?:\d+|Ace|...|검)\s+` at the
head of `l`, returning the matched length.  All `\s+`/`\d+` runs are maximal:
backtracking cannot help because each following atom starts with a character
outside the preceding class. -/
def matchHdrPre (l : List Char) : Option Nat :=
  let ds := l.takeWhile pyDigit
  if ds.isEmpty then none else
  match l.drop ds.length with
  | '.' :: r1 =>
    let w1 := r1.takeWhile isPySpace
    if w1.isEmpty then none else
    let r2 := r1.drop w1.length
    match matchAlt r2 with
    | none => none
    | some ka =>
      let w2 := (r2.drop ka).takeWhile isPySpace
      if w2.isEmpty then none
      else some (ds.length + 1 + w1.length + ka + w2.length)
  | _ => none

/-- Match a section marker `pre\)\s*lbl`-style pattern (`pre` is the literal
like `1)`, then `\s*`, then the literal label) at the head of `l`, returning
the matched length. -/
def matchSecPre (pre lbl : List Char) (l : List Char) : Option Nat :=
  if pre.isPrefixOf l then
    let r := l.drop pre.length
    let w := r.takeWhile isPySpace
    if lbl.isPrefixOf (r.drop w.length) then some (pre.length + w.length + lbl.length)
    else none
  else none

/-- `re.sub(r'(?<!\n)(PAT)', r'\n\1', text)` for a matcher `m` returning the
length of a `PAT` match at the head of its argument: scan left to right,
insert `'\n'` before every non-overlapping match not already preceded by
`'\n'`, copying the matched text verbatim.  `prevNL` records whether the
previous character of the input is a newline (the look-behind); `fuel`
bounds the recursion and is initialised to the text length, which suffices
since every step consumes at least one character. -/
def subNLF (m : List Char → Option Nat) : Nat → Bool → List Char → List Char
  | 0, _, l => l
  | _ + 1, _, [] => []
  | fuel + 1, prevNL, c :: rest =>
    match (if prevNL then none else m (c :: rest)) with
    | some k =>
      if 1 ≤ k then
        let matched := (c :: rest).take k
        '\n' :: (matched ++ subNLF m fuel (matched.getLastD 'x' == '\n') ((c :: rest).drop k))
      else c :: subNLF m fuel (c == '\n') rest
    | none => c :: subNLF m fuel (c == '\n') rest

def subNL (m : List Char → Option Nat) (l : List Char) : List Char :=
  subNLF m l.length false l

/-- `preprocess_pypdf`: the five `re.sub` passes, in source order. -/
def preprocess_pypdf (t : List Char) : List Char :=
  let t1 := subNL matchHdrPre t
  let t2 := subNL (matchSecPre (s2l "1)") (s2l "키워드")) t1
  let t3 := subNL (matchSecPre (s2l "2)") (s2l "회화적")) t2
  let t4 := subNL (matchSecPre (s2l "3)") (s2l "실전")) t3
  subNL (matchSecPre (s2l "4)") (s2l "상담")) t4

example : preprocess_pypdf (s2l "aaa 1. 0 바보 x 1) 키워드 y") =
    s2l "aaa \n1. 0 바보 x \n1) 키워드 y" := by decide
example : preprocess_pypdf (s2l "1. 컵 z") = s2l "\n1. 컵 z" := by decide
example : preprocess_pypdf (s2l "x\n1. 컵 z") = s2l "x\n1. 컵 z" := by decide
example : preprocess_pypdf (s2l "v 3.5 units") = s2l "v 3.5 units" := by decide
example : preprocess_pypdf (s2l "v 3. 5 units") = s2l "v \n3. 5 units" := by decide
example : preprocess_pypdf (s2l "a 12. Knight  of x") = s2l "a \n12. Knight  of x" := by decide
example : preprocess_pypdf (s2l "b 4)상담") = s2l "b \n4)상담" := by decide
example : preprocess_pypdf (s2l "q 1. 컵 1) 키워드") = s2l "q \n1. 컵 \n1) 키워드" := by decide
example : subNL matchHdrPre (s2l "1. 3 4. 컵 x") = s2l "\n1. 3 \n4. 컵 x" := by decide

/-- A structured record (Python dict with keys `card_name`, `meaning_up`,
`meaning_down`, `keywords`). -/
structure Card where
  card_name : List Char
  meaning_up : List Char
  meaning_down : List Char
  keywords : List (List Char)
deriving DecidableEq, Repr

/-- Match a sequence of literals separated by `\s*` (e.g. `2\)\s*회화적\s*설명`)
at the head of `l`, returning the matched length.  Deterministic: each
literal starts with a non-whitespace character, so the greedy `\s*` runs are
exactly the maximal whitespace runs. -/
def matchSeq : List (List Char) → List Char → Option Nat
  | [], _ => some 0
  | [lit], l => if lit.isPrefixOf l then some lit.length else none
  | lit :: lits, l =>
    if lit.isPrefixOf l then
      let r := l.drop lit.length
      let w := r.takeWhile isPySpace
      match matchSeq lits (r.drop w.length) with
      | some n => some (lit.length + w.length + n)
      | none => none
    else none

/-- `re.search` for a pattern `SEQ(.*?)(...)` (with `re.DOTALL`): find the
leftmost position where the start sequence matches and return the rest of the
text after it (the whole pattern then always matches because the lazy capture
can run to the end, where `$` holds). -/
def searchSeqRest (seq : List (List Char)) : List Char → Option (List Char)
  | [] => match matchSeq seq [] with
    | some _ => some []
    | none => none
  | c :: rest =>
    match matchSeq seq (c :: rest) with
    | some n => some ((c :: rest).drop n)
    | none => searchSeqRest seq rest

/-- One of the stop alternatives of a lazy capture matches at this position. -/
def stopsHere (stops : List (List (List Char))) (l : List Char) : Bool :=
  stops.any (fun s => (matchSeq s l).isSome)

/-- Python's `$` (without `re.MULTILINE`): end of the string, or just before
a final newline. -/
def dollarHere (l : List Char) : Bool := l.isEmpty || l == ['\n']

/-- The lazy capture `(.*?)(?:STOP1|STOP2|...|$)`: take characters until the
first position where a stop alternative or `$` matches. -/
def captureUpTo (stops : List (List (List Char))) : List Char → List Char
  | [] => []
  | c :: rest =>
    if stopsHere stops (c :: rest) || dollarHere (c :: rest) then []
    else c :: captureUpTo stops rest

/-- `re.search(r'SEQ(.*?)(?:STOPS|$)', block, re.DOTALL)`, returning
`group(1)` if the search succeeds. -/
def sectionText (seq : List (List Char)) (stops : List (List (List Char)))
    (block : List Char) : Option (List Char) :=
  (searchSeqRest seq block).map (captureUpTo stops)

def kwMarker : List Char := s2l "1) 키워드"

/-- The cleaned text of section 1 (`1\)\s*키워드(.*?)(?:2\)\s*회화적|3\)\s*실전|4\)\s*상담|$)`),
or empty if the marker is absent. -/
def keywordsTextOf (block : List Char) : List Char :=
  clean_text (match sectionText [s2l "1)", s2l "키워드"]
      [[s2l "2)", s2l "회화적"], [s2l "3)", s2l "실전"], [s2l "4)", s2l "상담"]] block with
    | some t => t
    | none => [])

/-- One keyword candidate: strip, remove one leading `-` marker (stripping
again), drop if empty. -/
def mkKeyword (k : List Char) : Option (List Char) :=
  let k1 := stripL k
  let k2 := if k1.head? == some '-' then stripL (k1.drop 1) else k1
  if k2.isEmpty then none else some k2

/-- The keyword separator class `[,.\n]`. -/
def sepKw (c : Char) : Bool := c == ',' || c == '.' || c == '\n'

/-- The keywords list of a block: split the cleaned section-1 text on
comma/period/newline and normalize each piece. -/
def keywordsOf (block : List Char) : List (List Char) :=
  let kt := keywordsTextOf block
  if kt.isEmpty then [] else (pySplitP sepKw kt).filterMap mkKeyword

/-- Cleaned text of section 2 (`2\)\s*회화적\s*설명(.*?)(?:3\)\s*실전|4\)\s*상담|$)`). -/
def descTextOf (block : List Char) : List Char :=
  match sectionText [s2l "2)", s2l "회화적", s2l "설명"]
      [[s2l "3)", s2l "실전"], [s2l "4)", s2l "상담"]] block with
  | some t => clean_text t
  | none => []

/-- Cleaned text of section 3 (`3\)\s*실전\s*상담(.*?)(?:4\)\s*상담|$)`). -/
def practTextOf (block : List Char) : List Char :=
  match sectionText [s2l "3)", s2l "실전", s2l "상담"] [[s2l "4)", s2l "상담"]] block with
  | some t => clean_text t
  | none => []

/-- `meaning_up`: the labeled section-2 and section-3 texts concatenated,
then stripped. -/
def meaningUpOf (block : List Char) : List Char :=
  let d := descTextOf block
  let p := practTextOf block
  stripL ((if d.isEmpty then [] else s2l "[회화적 설명]\n" ++ d ++ s2l "\n\n") ++
    (if p.isEmpty then [] else s2l "[실전 상담]\n" ++ p))

/-- `meaning_down`: cleaned text of section 4 (`4\)\s*상담\s*TIP(.*?)(?:$)`). -/
def meaningDownOf (block : List Char) : List Char :=
  match sectionText [s2l "4)", s2l "상담", s2l "TIP"] [] block with
  | some t => clean_text t
  | none => []

/-- `re.sub(r'^\d+\.\s+', '', header)`: remove one leading
digits-period-whitespace prefix (the anchored pattern matches at most once). -/
def stripHeaderNum (l : List Char) : List Char :=
  let ds := l.takeWhile pyDigit
  if ds.isEmpty then l else
  match l.drop ds.length with
  | '.' :: rest =>
    let ws := rest.takeWhile isPySpace
    if ws.isEmpty then l else rest.drop ws.length
  | _ => l

/-- Split before/after the first occurrence of `pat` (Python
`s.split(pat)[0]` is the first component). -/
def splitAtFirst (pat : List Char) : List Char → Option (List Char × List Char)
  | [] => if pat.isEmpty then some ([], []) else none
  | c :: rest =>
    if pat.isPrefixOf (c :: rest) then some ([], (c :: rest).drop pat.length)
    else match splitAtFirst pat rest with
      | some (a, b) => some (c :: a, b)
      | none => none

/-- The card name: first line of the stripped block, stripped, the leading
section number removed, truncated before a stray `1) 키워드` if present. -/
def cardNameOf (block : List Char) : List Char :=
  match pySplitNL (stripL block) with
  | [] => []
  | l0 :: _ =>
    let name1 := stripHeaderNum (stripL l0)
    if containsSub kwMarker name1 then
      match splitAtFirst kwMarker name1 with
      | some (before, _) => stripL before
      | none => name1
    else name1

/-- `parse_card_block`: extract all fields; return `none` when the three
content fields are all empty. -/
def parse_card_block (block : List Char) : Option Card :=
  match pySplitNL (stripL block) with
  | [] => none
  | _ :: _ =>
    let mu := meaningUpOf block
    let md := meaningDownOf block
    let kws := keywordsOf block
    if mu.isEmpty && md.isEmpty && kws.isEmpty then none
    else some ⟨cardNameOf block, mu, md, kws⟩

example : parse_card_block
    (s2l "1. Entity A\n1) 키워드\n- kw1, kw2\n2) 회화적 설명\ntext-b\n4) 상담 TIP\ntip-d") =
    some ⟨s2l "Entity A", s2l "[회화적 설명]\ntext-b", s2l "tip-d", [s2l "kw1", s2l "kw2"]⟩ := by
  decide
example : parse_card_block (s2l "7. Nothing here\njust prose") = none := by decide
example : parse_card_block (s2l "0 바보 (The Fool) 1) 키워드 자유, 시작") =
    some ⟨s2l "0 바보 (The Fool)", [], [], [s2l "자유", s2l "시작"]⟩ := by decide

/-- Match the captured group `\s*\d+\.\s+[^\n]+` of the header split pattern
at the head of `l`, returning (captured text, rest).  The greedy runs are
maximal; the one place where the regex engine's backtracking is observable is
when the `\s+` run after the period reaches the end of the input: the engine
then gives whitespace back one character at a time until `[^\n]+` can take at
least one character, i.e. until the last run character kept is not a newline. -/
def hdrGroupMatch (l : List Char) : Option (List Char × List Char) :=
  let w0 := l.takeWhile isPySpace
  let r1 := l.dropWhile isPySpace
  let ds := r1.takeWhile pyDigit
  if ds.isEmpty then none else
  match r1.drop ds.length with
  | '.' :: r2 =>
    let w := r2.takeWhile isPySpace
    if w.isEmpty then none else
    match r2.drop w.length with
    | _ :: _ =>
      let r3 := r2.drop w.length
      let content := r3.takeWhile (fun x => !(x == '\n'))
      some (w0 ++ ds ++ '.' :: (w ++ content), r3.drop content.length)
    | [] =>
      let t := ((w.drop 1).reverse.dropWhile (· == '\n')).reverse
      if t.isEmpty then none
      else
        let i := t.length
        let content := (w.drop i).takeWhile (fun x => !(x == '\n'))
        some (w0 ++ ds ++ '.' :: (w.take i ++ content), (w.drop i).drop content.length)
  | _ => none

/-- The split pattern `\n(\s*\d+\.\s+[^\n]+)` at the head of `l`. -/
def matchSplit : List Char → Option (List Char × List Char)
  | [] => none
  | c :: rest => if c = '\n' then hdrGroupMatch rest else none

/-- Leftmost match of the split pattern: returns (text before the match,
captured group, text after the match). -/
def findSplit : List Char → Option (List Char × List Char × List Char)
  | [] => none
  | c :: rest =>
    match matchSplit (c :: rest) with
    | some (cap, after) => some ([], cap, after)
    | none =>
      match findSplit rest with
      | some (g, cap, after) => some (c :: g, cap, after)
      | none => none

/-- `re.split(r'\n(\s*\d+\.\s+[^\n]+)', text)`: the alternating list
gap, captured header, gap, captured header, ...  `fuel` bounds the recursion
and is initialised to the text length (each match consumes the matched
newline, so the remainder strictly shrinks). -/
def reSplitGo : Nat → List Char → List (List Char)
  | 0, l => [l]
  | fuel + 1, l =>
    match findSplit l with
    | none => [l]
    | some (g, cap, rest) => g :: cap :: reSplitGo fuel rest

def reSplitHdr (l : List Char) : List (List Char) := reSplitGo l.length l

/-- The candidate blocks assembled from the split parts after the leading
gap: each header (stripped) is joined with a newline to the following gap
(or to nothing if it is the last part). -/
def candBlocks : List (List Char) → List (List Char)
  | [] => []
  | [h] => [stripL h ++ ['\n']]
  | h :: g :: rest => (stripL h ++ '\n' :: g) :: candBlocks rest

/-- All candidate blocks of `parse_full_text` before the marker filter. -/
def candidateBlocks (text : List Char) : List (List Char) :=
  match reSplitHdr ('\n' :: text) with
  | [] => []
  | _ :: rest => candBlocks rest

/-- The kept blocks: candidates containing the literal `1) 키워드`. -/
def segmentBlocks (text : List Char) : List (List Char) :=
  (candidateBlocks text).filter (fun b => containsSub kwMarker b)

/-- `parse_full_text`: segment, extract per block, drop `None`s. -/
def parse_full_text (text : List Char) : List Card :=
  (segmentBlocks text).filterMap parse_card_block

example : parse_full_text [] = [] := by decide
example : reSplitHdr (s2l "\nIntro\n1. Card A\n1) x\n2. Card B\nbody") =
    [s2l "\nIntro", s2l "1. Card A", s2l "\n1) x", s2l "2. Card B", s2l "\nbody"] := by decide
example : reSplitHdr (s2l "abc\n1.   ") = [s2l "abc", s2l "1.   ", []] := by decide
example : reSplitHdr (s2l "abc\n1. \n\n") = [s2l "abc\n1. \n\n"] := by decide
example : reSplitHdr (s2l "abc\n1.  \n x\n") = [s2l "abc", s2l "1.  \n x", s2l "\n"] := by decide
example : reSplitHdr (s2l "x\n\n1. Card\nbody") = [s2l "x", s2l "\n1. Card", s2l "\nbody"] := by decide
example : parse_full_text (s2l "Intro\n1. Real\n1) 키워드\n- kw\n12. Appendix\nno marker") =
    [⟨s2l "Real", [], [], [s2l "kw"]⟩] := by decide

/-- The page-concatenation loop of `strategy_pdfplumber` / `strategy_pymupdf`:
`full_text += text + "\n"` for each page whose text is non-empty (a `None`
page is modelled as the empty list, which Python's `if text:` also skips). -/
def joinPages (pages : List (List Char)) : List Char :=
  pages.foldl (fun acc t => if t.isEmpty then acc else acc ++ (t ++ ['\n'])) []

/-- The page-concatenation loop of `strategy_pypdf`: each non-empty page is
repaired by `preprocess_pypdf` before being appended. -/
def joinPagesPypdf (pages : List (List Char)) : List Char :=
  pages.foldl (fun acc t => if t.isEmpty then acc else acc ++ (preprocess_pypdf t ++ ['\n'])) []

/-- The pdfplumber pipeline on already-read page texts. -/
def strategy_pdfplumber (pages : List (List Char)) : List Card :=
  parse_full_text (joinPages pages)

/-- The PyMuPDF pipeline on already-read page texts (same concatenation). -/
def strategy_pymupdf (pages : List (List Char)) : List Card :=
  parse_full_text (joinPages pages)

/-- The pypdf pipeline on already-read page texts. -/
def strategy_pypdf (pages : List (List Char)) : List Card :=
  parse_full_text (joinPagesPypdf pages)

/-- Formalization of the spec's words for the claim about page
concatenation: "concatenate all pages' text with a newline separator between
pages; skip null/empty pages" — i.e. the newline-separated concatenation of
the non-empty pages, with no trailing newline.  Used only to compare against
the code's `joinPages`. -/
def specJoinPages (pages : List (List Char)) : List Char :=
  pyJoinNL (pages.filter (fun p => !p.isEmpty))

/-- Same, with the spec's per-page repair for the pypdf backend. -/
def specJoinPagesPypdf (pages : List (List Char)) : List Char :=
  pyJoinNL ((pages.filter (fun p => !p.isEmpty)).map preprocess_pypdf)

/-- Delete all newline characters (used to state that the pypdf repair only
inserts newlines). -/
def delNL (l : List Char) : List Char := l.filter (fun c => !(c == '\n'))

/-- The header split pattern `\n(\s*\d+\.\s+[^\n]+)` occurs nowhere in
`'\n' :: text` (the text as prepared by `parse_full_text`): it fires at no
suffix. -/
def noHdrOcc (text : List Char) : Bool :=
  ('\n' :: text).tails.all (fun s => (matchSplit s).isNone)

/-- A well-formed header line: digits, a period, whitespace, then a
non-empty entity label; one line (no newline), starting with a digit and
ending with a non-whitespace character. -/
def wfHeader (h : List Char) : Bool :=
  let ds := h.takeWhile pyDigit
  match h.drop ds.length with
  | c :: r =>
    let w := r.takeWhile isPySpace
    let lab := r.drop w.length
    !ds.isEmpty && (c == '.') && !w.isEmpty && !lab.isEmpty &&
      h.all (fun x => !(x == '\n')) &&
      !isPySpace (lab.headD 'x') && !isPySpace (lab.getLastD 'x')
  | [] => false

/-- One entity of a well-formed document: a newline, the header line, a
newline, the body. -/
def entryText (e : List Char × List Char) : List Char := '\n' :: (e.1 ++ '\n' :: e.2)

def tailText (es : List (List Char × List Char)) : List Char := (es.map entryText).flatten

/-- A document text: a preamble followed by the entity blocks. -/
def docText (pre : List Char) (es : List (List Char × List Char)) : List Char :=
  pre ++ tailText es

/-- The split pattern fires at no position inside the segment `g` when the
document continues with `rest`: for every non-empty suffix `s` of `g`,
`matchSplit` fails at `s ++ rest` (the empty suffix is the position of the
next designated header and is exempt). -/
def gapClean (g rest : List Char) : Bool :=
  g.tails.all (fun s => s.isEmpty || (matchSplit (s ++ rest)).isNone)

/-- Every entry has a well-formed header, a body containing the mandatory
first-section marker, and a body at whose positions the split pattern never
fires. -/
def wfEntriesB : List (List Char × List Char) → Bool
  | [] => true
  | e :: es =>
    wfHeader e.1 && containsSub kwMarker e.2 &&
      gapClean ('\n' :: e.2) (tailText es) && wfEntriesB es

/-- A well-formed document: clean preamble and well-formed entries. -/
def wfDoc (pre : List Char) (es : List (List Char × List Char)) : Bool :=
  gapClean ('\n' :: pre) (tailText es) && wfEntriesB es

/-- The split parts after the leading gap for a well-formed document:
header, gap, header, gap, ... -/
def partsOf : List (List Char × List Char) → List (List Char)
  | [] => []
  | e :: es => e.1 :: ('\n' :: e.2) :: partsOf es

/-- Remove a trailing whitespace run. -/
def revDropRev (l : List Char) : List Char := (l.reverse.dropWhile isPySpace).reverse

/-- Apply `f` to the last element. -/
def modLast (f : List Char → List Char) : List (List Char) → List (List Char)
  | [] => []
  | [l] => [f l]
  | l :: ls => l :: modLast f ls

/-! ## Helper lemmas -/

theorem pySplitP_cons (p : Char → Bool) (c : Char) (rest : List Char) :
    pySplitP p (c :: rest) =
      match pySplitP p rest with
      | [] => [[c]]
      | h :: t => if p c then [] :: h :: t else (c :: h) :: t := rfl

theorem pySplitP_ne_nil (p : Char → Bool) (l : List Char) : pySplitP p l ≠ [] := by
  induction l with
  | nil => simp [pySplitP]
  | cons c rest ih =>
    rw [pySplitP_cons]
    cases h : pySplitP p rest with
    | nil => simp
    | cons hd tl => by_cases hp : p c <;> simp [hp]

theorem pySplitP_cons_pos (p : Char → Bool) (c : Char) (rest : List Char) (h : p c = true) :
    pySplitP p (c :: rest) = [] :: pySplitP p rest := by
  rw [pySplitP_cons]
  cases hr : pySplitP p rest with
  | nil => exact absurd hr (pySplitP_ne_nil p rest)
  | cons hd tl => simp [h]

theorem pySplitP_cons_neg (p : Char → Bool) (c : Char) (rest : List Char) (h : p c = false)
    (hd : List Char) (tl : List (List Char)) (hr : pySplitP p rest = hd :: tl) :
    pySplitP p (c :: rest) = (c :: hd) :: tl := by
  rw [pySplitP_cons, hr]
  simp [h]

theorem delNL_cons (c : Char) (l : List Char) :
    delNL (c :: l) = if c = '\n' then delNL l else c :: delNL l := by
  simp only [delNL, List.filter_cons]
  by_cases h : c = '\n' <;> simp [h]

theorem delNL_append (a b : List Char) : delNL (a ++ b) = delNL a ++ delNL b := by
  simp [delNL, List.filter_append]

/-- The `re.sub` scanner only inserts newline characters: deleting all
newlines recovers the newline-free content of its input, for any matcher,
fuel and look-behind state. -/
theorem subNLF_delNL (m : List Char → Option Nat) :
    ∀ fuel prevNL l, delNL (subNLF m fuel prevNL l) = delNL l := by
  intro fuel
  induction fuel with
  | zero => intro prevNL l; rfl
  | succ fuel ih =>
    intro prevNL l
    cases l with
    | nil => rfl
    | cons c rest =>
      simp only [subNLF]
      cases hm : (if prevNL then none else m (c :: rest)) with
      | none =>
        simp only [delNL_cons]
        rw [show delNL (subNLF m fuel (c == '\n') rest) = delNL rest from ih _ _]
      | some k =>
        by_cases hk : 1 ≤ k
        · simp only [if_pos hk]
          rw [delNL_cons, if_pos (show ('\n' : Char) = '\n' from rfl), delNL_append, ih,
            ← delNL_append, List.take_append_drop]
        · simp only [if_neg hk, delNL_cons]
          rw [show delNL (subNLF m fuel (c == '\n') rest) = delNL rest from ih _ _]

/-! ## Claim theorems (with their supporting lemmas) -/

/-- C3: on the spec's example block, `parse_card_block` extracts the name
`Entity A`, the keywords `kw1, kw2`, a `meaning_up` consisting of the
labeled section-2 block containing `text-b`, and `meaning_down = tip-d`. -/
theorem C3_extraction_example :
    parse_card_block
        (s2l "1. Entity A\n1) 키워드\n- kw1, kw2\n2) 회화적 설명\ntext-b\n4) 상담 TIP\ntip-d") =
      some ⟨s2l "Entity A", s2l "[회화적 설명]\ntext-b", s2l "tip-d",
        [s2l "kw1", s2l "kw2"]⟩ := by
  decide

/-- C8: `preprocess_pypdf` only inserts newline characters: deleting all
newlines from its output yields the input with all newlines deleted. -/
theorem C8_preprocess_only_newlines (t : List Char) :
    delNL (preprocess_pypdf t) = delNL t := by
  unfold preprocess_pypdf subNL
  rw [subNLF_delNL, subNLF_delNL, subNLF_delNL, subNLF_delNL, subNLF_delNL]

theorem joinPages_foldl (pages : List (List Char)) : ∀ acc : List Char,
    pages.foldl (fun acc t => if t.isEmpty then acc else acc ++ (t ++ ['\n'])) acc =
      acc ++ ((pages.filter (fun p => !p.isEmpty)).map (fun p => p ++ ['\n'])).flatten := by
  induction pages with
  | nil => intro acc; simp
  | cons t ps ih =>
    intro acc
    simp only [List.foldl_cons, List.filter_cons]
    by_cases h : t.isEmpty
    · simp only [h, if_pos, Bool.not_true, if_neg Bool.false_ne_true, ih]
    · simp only [eq_self_iff_true, h, if_neg, Bool.not_false, if_pos, ih,
        List.map_cons, List.flatten_cons, List.append_assoc]
      rw [if_neg (by simp [h])]
      simp [List.append_assoc]

theorem joinPagesPypdf_foldl (pages : List (List Char)) : ∀ acc : List Char,
    pages.foldl (fun acc t => if t.isEmpty then acc else acc ++ (preprocess_pypdf t ++ ['\n'])) acc =
      acc ++ ((pages.filter (fun p => !p.isEmpty)).map
        (fun p => preprocess_pypdf p ++ ['\n'])).flatten := by
  induction pages with
  | nil => intro acc; simp
  | cons t ps ih =>
    intro acc
    simp only [List.foldl_cons, List.filter_cons]
    by_cases h : t.isEmpty
    · simp only [h, if_pos, Bool.not_true, if_neg Bool.false_ne_true, ih]
    · simp only [eq_self_iff_true, h, if_neg, Bool.not_false, if_pos, ih,
        List.map_cons, List.flatten_cons, List.append_assoc]
      rw [if_neg (by simp [h])]
      simp [List.append_assoc]

/-- Concatenating `x ++ "\n"` over a non-empty list is the newline-separated
join followed by a trailing newline. -/
theorem flatten_map_newline (ls : List (List Char)) (h : ls ≠ []) :
    (ls.map (fun p => p ++ ['\n'])).flatten = pyJoinNL ls ++ ['\n'] := by
  induction ls with
  | nil => exact absurd rfl h
  | cons a t ih =>
    cases t with
    | nil => simp [pyJoinNL]
    | cons b t' =>
      have ih' := ih (by simp)
      show (a ++ ['\n']) ++ (List.map (fun p => p ++ ['\n']) (b :: t')).flatten =
        (a ++ '\n' :: pyJoinNL (b :: t')) ++ ['\n']
      rw [ih']
      simp [List.append_assoc]

/-- C7 counterexample: the document text the code builds is not the
newline-separated concatenation of the pages — it carries a trailing
newline (pages `["a", "b"]` give `"a\nb\n"`, not `"a\nb"`). -/
theorem C7_page_concatenation_cex :
    joinPages [['a'], ['b']] ≠ specJoinPages [['a'], ['b']] := by decide

/-- C7 (amended): each strategy feeds `parse_full_text` the concatenation of
the non-empty pages with a newline appended after every page — that is, the
newline-separated concatenation of the spec plus one trailing newline (empty
when every page is empty); the pypdf strategy repairs each non-empty page
before concatenation. -/
theorem C7_page_concatenation_amended (pages : List (List Char)) :
    (joinPages pages =
      if (pages.filter (fun p => !p.isEmpty)).isEmpty then []
      else specJoinPages pages ++ ['\n']) ∧
    (joinPagesPypdf pages =
      if (pages.filter (fun p => !p.isEmpty)).isEmpty then []
      else specJoinPagesPypdf pages ++ ['\n']) ∧
    strategy_pdfplumber pages = parse_full_text (joinPages pages) ∧
    strategy_pymupdf pages = parse_full_text (joinPages pages) ∧
    strategy_pypdf pages = parse_full_text (joinPagesPypdf pages) := by
  refine ⟨?_, ?_, rfl, rfl, rfl⟩
  · rw [show joinPages pages =
        ((pages.filter (fun p => !p.isEmpty)).map (fun p => p ++ ['\n'])).flatten from
      joinPages_foldl pages []]
    by_cases hf : (pages.filter (fun p => !p.isEmpty)).isEmpty = true
    · rw [if_pos hf]
      rw [List.isEmpty_iff.mp hf]
      rfl
    · rw [if_neg hf]
      rw [flatten_map_newline _ (by simpa [List.isEmpty_iff] using hf)]
      rfl
  · rw [show joinPagesPypdf pages =
        ((pages.filter (fun p => !p.isEmpty)).map
          (fun p => preprocess_pypdf p ++ ['\n'])).flatten from joinPagesPypdf_foldl pages []]
    rw [show (pages.filter (fun p => !p.isEmpty)).map (fun p => preprocess_pypdf p ++ ['\n']) =
        ((pages.filter (fun p => !p.isEmpty)).map preprocess_pypdf).map (fun p => p ++ ['\n'])
      from by rw [List.map_map]; rfl]
    by_cases hf : (pages.filter (fun p => !p.isEmpty)).isEmpty = true
    · rw [if_pos hf]
      rw [List.isEmpty_iff.mp hf]
      rfl
    · rw [if_neg hf]
      rw [flatten_map_newline _ (by
        simp only [ne_eq, List.map_eq_nil_iff]
        simpa [List.isEmpty_iff] using hf)]
      rfl

/-- If the split pattern fires at no suffix, the scan finds no match. -/
theorem findSplit_eq_none (l : List Char)
    (h : ∀ s, s <:+ l → matchSplit s = none) : findSplit l = none := by
  induction l with
  | nil => rfl
  | cons c rest ih =>
    unfold findSplit
    rw [h (c :: rest) (List.suffix_refl _)]
    rw [ih (fun s hs => h s (hs.trans (List.suffix_cons c rest)))]

/-- C10: `parse_full_text` returns no records on the empty string, and on
any text where the header split pattern never occurs. -/
theorem C10_no_headers :
    parse_full_text [] = [] ∧
      ∀ text, noHdrOcc text = true → parse_full_text text = [] := by
  constructor
  · decide
  · intro text h
    have hall := List.all_eq_true.mp h
    have hfs : findSplit ('\n' :: text) = none := by
      apply findSplit_eq_none
      intro s hs
      have := hall s ((List.mem_tails _ _).mpr hs)
      simpa [Option.isNone_iff_eq_none] using this
    unfold parse_full_text segmentBlocks candidateBlocks reSplitHdr
    rw [show ('\n' :: text).length = text.length + 1 from rfl]
    unfold reSplitGo
    rw [hfs]
    rfl

/-- C10 witness: a concrete text with no header occurrence. -/
theorem C10_no_headers_w : parse_full_text (s2l "hello\nworld") = [] :=
  C10_no_headers.2 (s2l "hello\nworld") (by decide)

theorem dropWhile_all_append (p : Char → Bool) (a : List Char)
    (hall : ∀ x ∈ a, p x = true) : ∀ b, (a ++ b).dropWhile p = b.dropWhile p := by
  induction a with
  | nil => intro b; rfl
  | cons c a' ih =>
    intro b
    rw [List.cons_append, List.dropWhile_cons, if_pos (hall c (List.mem_cons_self c a'))]
    exact ih (fun x hx => hall x (List.mem_cons_of_mem c hx)) b

theorem dropWhile_append_of_ne_nil (p : Char → Bool) (a b : List Char)
    (h : a.dropWhile p ≠ []) : (a ++ b).dropWhile p = a.dropWhile p ++ b := by
  induction a with
  | nil => exact absurd rfl h
  | cons c a' ih =>
    by_cases hp : p c = true
    · rw [List.cons_append, List.dropWhile_cons, if_pos hp]
      rw [List.dropWhile_cons, if_pos hp] at h ⊢
      exact ih h
    · rw [List.cons_append, List.dropWhile_cons, if_neg hp,
        List.dropWhile_cons, if_neg hp, List.cons_append]

theorem strip_decomp (l : List Char) :
    ∃ a b, (∀ x ∈ a, isPySpace x = true) ∧ (∀ x ∈ b, isPySpace x = true) ∧
      l = a ++ stripL l ++ b := by
  refine ⟨l.takeWhile isPySpace,
    ((l.dropWhile isPySpace).reverse.takeWhile isPySpace).reverse,
    fun x hx => List.mem_takeWhile_imp hx,
    fun x hx => List.mem_takeWhile_imp (by simpa using hx), ?_⟩
  conv_lhs => rw [← List.takeWhile_append_dropWhile isPySpace l]
  rw [List.append_assoc]
  congr 1
  conv_lhs => rw [← List.reverse_reverse (l.dropWhile isPySpace),
    ← List.takeWhile_append_dropWhile isPySpace (l.dropWhile isPySpace).reverse]
  rw [List.reverse_append]
  rfl

theorem stripL_ws_front (a l : List Char) (ha : ∀ x ∈ a, isPySpace x = true) :
    stripL (a ++ l) = stripL l := by
  unfold stripL
  rw [dropWhile_all_append isPySpace a ha l]

theorem stripL_ws_suffix (l b : List Char) (hb : ∀ x ∈ b, isPySpace x = true) :
    stripL (l ++ b) = stripL l := by
  unfold stripL
  by_cases h : l.dropWhile isPySpace = []
  · rw [show (l ++ b).dropWhile isPySpace = b.dropWhile isPySpace from
      dropWhile_all_append isPySpace l (List.dropWhile_eq_nil_iff.mp h) b]
    rw [h, List.dropWhile_eq_nil_iff.mpr hb]
  · rw [dropWhile_append_of_ne_nil isPySpace l b h, List.reverse_append]
    rw [dropWhile_all_append isPySpace b.reverse (fun x hx => hb x (by simpa using hx))]

theorem stripL_idem (l : List Char) : stripL (stripL l) = stripL l := by
  obtain ⟨a, b, ha, hb, hl⟩ := strip_decomp l
  calc stripL (stripL l) = stripL (stripL l ++ b) := (stripL_ws_suffix _ b hb).symm
    _ = stripL (a ++ (stripL l ++ b)) := (stripL_ws_front a _ ha).symm
    _ = stripL l := by rw [← List.append_assoc, ← hl]

theorem mem_stripL (l : List Char) (x : Char) (h : x ∈ stripL l) : x ∈ l := by
  obtain ⟨a, b, _, _, hl⟩ := strip_decomp l
  rw [hl]
  simp only [List.mem_append]
  exact Or.inl (Or.inr h)

theorem mem_pySplitP (p : Char → Bool) (l : List Char) (piece : List Char)
    (hp : piece ∈ pySplitP p l) (x : Char) (hx : x ∈ piece) : p x = false := by
  induction l generalizing piece with
  | nil =>
    simp [pySplitP] at hp
    subst hp
    exact absurd hx (List.not_mem_nil x)
  | cons c rest ih =>
    cases hr : pySplitP p rest with
    | nil => exact absurd hr (pySplitP_ne_nil p rest)
    | cons hd tl =>
      by_cases hc : p c = true
      · rw [pySplitP_cons_pos p c rest hc, hr] at hp
        rcases List.mem_cons.mp hp with h1 | h1
        · subst h1; exact absurd hx (List.not_mem_nil x)
        · exact ih piece (hr ▸ h1) hx
      · rw [pySplitP_cons_neg p c rest (Bool.eq_false_iff.mpr hc) hd tl hr] at hp
        rcases List.mem_cons.mp hp with h1 | h1
        · subst h1
          rcases List.mem_cons.mp hx with h2 | h2
          · subst h2; exact Bool.eq_false_iff.mpr hc
          · exact ih hd (hr ▸ List.mem_cons_self hd tl) h2
        · exact ih piece (hr ▸ List.mem_cons_of_mem hd h1) hx

/-- C1: `parse_card_block` returns `none` exactly when the extracted
keywords list, `meaning_up` and `meaning_down` are all empty; consequently
every record it emits has at least one of them non-empty. -/
theorem C1_null_iff (block : List Char) :
    (parse_card_block block = none ↔
      keywordsOf block = [] ∧ meaningUpOf block = [] ∧ meaningDownOf block = []) ∧
    ∀ c, parse_card_block block = some c →
      (c.keywords ≠ [] ∨ c.meaning_up ≠ [] ∨ c.meaning_down ≠ []) := by
  have hsplit := pySplitP_ne_nil (fun c => c == '\n') (stripL block)
  unfold parse_card_block
  cases hs : pySplitNL (stripL block) with
  | nil => exact absurd (hs ▸ rfl) hsplit
  | cons l0 ls =>
    by_cases hb : ((meaningUpOf block).isEmpty && (meaningDownOf block).isEmpty &&
        (keywordsOf block).isEmpty) = true
    · rw [if_pos hb]
      simp only [Bool.and_eq_true, List.isEmpty_iff] at hb
      exact ⟨⟨fun _ => ⟨hb.2, hb.1.1, hb.1.2⟩, fun _ => rfl⟩,
        fun c hc => absurd hc (by simp)⟩
    · rw [if_neg hb]
      simp only [Bool.and_eq_true, List.isEmpty_iff] at hb
      constructor
      · constructor
        · intro hcon; exact absurd hcon (by simp)
        · intro ⟨h1, h2, h3⟩; exact absurd ⟨⟨h2, h3⟩, h1⟩ hb
      · intro c hc
        have hcc : c = ⟨cardNameOf block, meaningUpOf block, meaningDownOf block,
            keywordsOf block⟩ := by
          cases hc; rfl
        subst hcc
        by_cases h1 : keywordsOf block = []
        · by_cases h2 : meaningUpOf block = []
          · by_cases h3 : meaningDownOf block = []
            · exact absurd ⟨⟨h2, h3⟩, h1⟩ hb
            · exact Or.inr (Or.inr h3)
          · exact Or.inr (Or.inl h2)
        · exact Or.inl h1

/-- C1 witness at a concrete block. -/
theorem C1_null_iff_w :
    (⟨s2l "A", [], [], [s2l "x"]⟩ : Card).keywords ≠ [] ∨
      (⟨s2l "A", [], [], [s2l "x"]⟩ : Card).meaning_up ≠ [] ∨
      (⟨s2l "A", [], [], [s2l "x"]⟩ : Card).meaning_down ≠ [] :=
  (C1_null_iff (s2l "1. A\n1) 키워드\nx")).2 ⟨s2l "A", [], [], [s2l "x"]⟩ (by decide)

/-- C9: every keyword in an emitted record is non-empty, carries no leading
or trailing whitespace (it is its own strip), and contains no comma, period
or newline. -/
theorem C9_keyword_shape (block : List Char) (c : Card) (k : List Char)
    (hc : parse_card_block block = some c) (hk : k ∈ c.keywords) :
    k ≠ [] ∧ stripL k = k ∧ ',' ∉ k ∧ '.' ∉ k ∧ '\n' ∉ k := by
  have hkw : c.keywords = keywordsOf block := by
    have hsplit := pySplitP_ne_nil (fun c => c == '\n') (stripL block)
    unfold parse_card_block at hc
    cases hs : pySplitNL (stripL block) with
    | nil => exact absurd (hs ▸ rfl) hsplit
    | cons l0 ls =>
      rw [hs] at hc
      by_cases hb : ((meaningUpOf block).isEmpty && (meaningDownOf block).isEmpty &&
          (keywordsOf block).isEmpty) = true
      · rw [if_pos hb] at hc; exact absurd hc (by simp)
      · rw [if_neg hb] at hc; cases hc; rfl
  rw [hkw] at hk
  unfold keywordsOf at hk
  by_cases hkt : (keywordsTextOf block).isEmpty = true
  · rw [if_pos hkt] at hk; exact absurd hk (List.not_mem_nil k)
  · rw [if_neg hkt] at hk
    obtain ⟨piece, hpiece, hmk⟩ := List.mem_filterMap.mp hk
    have hk2 : ∃ k2, ((if k2.isEmpty then none else some k2) = some k) ∧
        (k2 = stripL ((stripL piece).drop 1) ∨ k2 = stripL piece) := by
      simp only [mkKeyword] at hmk
      by_cases hh : ((stripL piece).head? == some '-') = true
      · rw [if_pos hh] at hmk
        exact ⟨_, hmk, Or.inl rfl⟩
      · rw [if_neg hh] at hmk
        exact ⟨_, hmk, Or.inr rfl⟩
    obtain ⟨k2, hsome, hcase⟩ := hk2
    by_cases he : k2.isEmpty = true
    · rw [if_pos he] at hsome; exact absurd hsome (by simp)
    · rw [if_neg he] at hsome
      have hk2k : k2 = k := by injection hsome
      subst hk2k
      have hmem : ∀ x, x ∈ k2 → sepKw x = false := by
        intro x hx
        have hxp : x ∈ piece := by
          rcases hcase with h | h
          · rw [h] at hx
            exact mem_stripL piece x (List.mem_of_mem_drop (mem_stripL _ x hx))
          · rw [h] at hx; exact mem_stripL piece x hx
        exact mem_pySplitP sepKw (keywordsTextOf block) piece hpiece x hxp
      refine ⟨by simpa [List.isEmpty_iff] using he, ?_, ?_, ?_, ?_⟩
      · rcases hcase with h | h <;> (rw [h]; exact stripL_idem _)
      · exact fun h => absurd (hmem ',' h) (by decide)
      · exact fun h => absurd (hmem '.' h) (by decide)
      · exact fun h => absurd (hmem '\n' h) (by decide)

/-- C9 witness at a concrete block and keyword. -/
theorem C9_keyword_shape_w :
    (s2l "kw1") ≠ [] ∧ stripL (s2l "kw1") = s2l "kw1" ∧
      ',' ∉ s2l "kw1" ∧ '.' ∉ s2l "kw1" ∧ '\n' ∉ s2l "kw1" :=
  C9_keyword_shape (s2l "1. A\n1) 키워드\n- kw1") ⟨s2l "A", [], [], [s2l "kw1"]⟩
    (s2l "kw1") (by decide) (by decide)

theorem pyJoinNL_cons_cons (a b : List Char) (t : List (List Char)) :
    pyJoinNL (a :: b :: t) = a ++ '\n' :: pyJoinNL (b :: t) := rfl

theorem pySplitNL_ne_nil (l : List Char) : pySplitNL l ≠ [] := pySplitP_ne_nil _ l

theorem pySplitNL_cons_pos (rest : List Char) :
    pySplitNL ('\n' :: rest) = [] :: pySplitNL rest :=
  pySplitP_cons_pos _ '\n' rest (by simp)

theorem pySplitNL_cons_neg (c : Char) (rest : List Char) (h : c ≠ '\n')
    (hd : List Char) (tl : List (List Char)) (hr : pySplitNL rest = hd :: tl) :
    pySplitNL (c :: rest) = (c :: hd) :: tl :=
  pySplitP_cons_neg _ c rest (by simp [h]) hd tl hr

theorem mem_pySplitNL_no_nl (l line : List Char) (h : line ∈ pySplitNL l) : '\n' ∉ line := by
  intro hmem
  have := mem_pySplitP (fun c => c == '\n') l line h '\n' hmem
  simp at this

theorem pyJoin_pySplit (l : List Char) : pyJoinNL (pySplitNL l) = l := by
  induction l with
  | nil => rfl
  | cons c rest ih =>
    cases hr : pySplitNL rest with
    | nil => exact absurd hr (pySplitP_ne_nil _ rest)
    | cons h t =>
      rw [hr] at ih
      by_cases hc : c = '\n'
      · subst hc
        rw [show pySplitNL ('\n' :: rest) = [] :: pySplitNL rest from
          pySplitP_cons_pos _ '\n' rest (by simp), hr, pyJoinNL_cons_cons,
          List.nil_append, ih]
      · rw [show pySplitNL (c :: rest) = (c :: h) :: t from
          pySplitP_cons_neg _ c rest (by simp [hc]) h t hr]
        cases t with
        | nil =>
          show c :: h = c :: rest
          rw [show pyJoinNL [h] = h from rfl] at ih
          rw [ih]
        | cons t0 t1 =>
          rw [pyJoinNL_cons_cons]
          rw [pyJoinNL_cons_cons] at ih
          show c :: (h ++ '\n' :: pyJoinNL (t0 :: t1)) = c :: rest
          rw [← ih]

theorem pySplitNL_no_sep (l : List Char) (h : '\n' ∉ l) : pySplitNL l = [l] := by
  induction l with
  | nil => rfl
  | cons c rest ih =>
    simp only [List.mem_cons, not_or] at h
    rw [pySplitNL_cons_neg c rest (fun hcc => h.1 hcc.symm) rest [] (ih h.2)]

theorem pySplitNL_append_nl (a b : List Char) :
    pySplitNL (a ++ '\n' :: b) = pySplitNL a ++ pySplitNL b := by
  induction a with
  | nil =>
    show pySplitNL ('\n' :: b) = pySplitNL [] ++ pySplitNL b
    rw [pySplitNL_cons_pos b]
    rfl
  | cons c a' ih =>
    by_cases hc : c = '\n'
    · subst hc
      rw [List.cons_append, pySplitNL_cons_pos (a' ++ '\n' :: b), ih,
        pySplitNL_cons_pos a']
      rfl
    · cases hr : pySplitNL a' with
      | nil => exact absurd hr (pySplitNL_ne_nil a')
      | cons h t =>
        have hsplit : pySplitNL (a' ++ '\n' :: b) = h :: (t ++ pySplitNL b) := by
          rw [ih, hr]; rfl
        rw [List.cons_append,
          pySplitNL_cons_neg c (a' ++ '\n' :: b) hc h (t ++ pySplitNL b) hsplit,
          pySplitNL_cons_neg c a' hc h t hr]
        rfl

theorem pySplitNL_pyJoinNL (ls : List (List Char)) (hne : ls ≠ [])
    (hnn : ∀ y ∈ ls, '\n' ∉ y) : pySplitNL (pyJoinNL ls) = ls := by
  induction ls with
  | nil => exact absurd rfl hne
  | cons a t ih =>
    cases t with
    | nil => exact pySplitNL_no_sep a (hnn a (List.mem_cons_self a []))
    | cons b t' =>
      rw [pyJoinNL_cons_cons, pySplitNL_append_nl,
        pySplitNL_no_sep a (hnn a (List.mem_cons_self a (b :: t'))),
        ih (by simp) (fun y hy => hnn y (List.mem_cons_of_mem _ hy))]
      rfl

theorem modLast_append_single (f : List Char → List Char) (xs : List (List Char))
    (x : List Char) : modLast f (xs ++ [x]) = xs ++ [f x] := by
  induction xs with
  | nil => rfl
  | cons a t ih =>
    cases t with
    | nil => rfl
    | cons b t' =>
      show a :: modLast f ((b :: t') ++ [x]) = a :: ((b :: t') ++ [f x])
      rw [ih]

theorem pySplitNL_snoc (a : List Char) (c : Char) (hc : c ≠ '\n') :
    pySplitNL (a ++ [c]) = modLast (fun x => x ++ [c]) (pySplitNL a) := by
  induction a with
  | nil =>
    show pySplitNL [c] = modLast _ [[]]
    rw [pySplitNL_cons_neg c [] hc [] [] rfl]
    rfl
  | cons d a' ih =>
    by_cases hd : d = '\n'
    · subst hd
      rw [List.cons_append, pySplitNL_cons_pos (a' ++ [c]), ih,
        pySplitNL_cons_pos a']
      cases hr : pySplitNL a' with
      | nil => exact absurd hr (pySplitNL_ne_nil a')
      | cons h t => rfl
    · cases hr : pySplitNL a' with
      | nil => exact absurd hr (pySplitNL_ne_nil a')
      | cons h t =>
        have h2 : pySplitNL (a' ++ [c]) = modLast (fun x => x ++ [c]) (h :: t) := by
          rw [ih, hr]
        cases t with
        | nil =>
          rw [List.cons_append,
            pySplitNL_cons_neg d (a' ++ [c]) hd (h ++ [c]) [] (by rw [h2]; rfl),
            pySplitNL_cons_neg d a' hd h [] hr]
          rfl
        | cons h2' t2 =>
          rw [List.cons_append,
            pySplitNL_cons_neg d (a' ++ [c]) hd h
              (modLast (fun x => x ++ [c]) (h2' :: t2)) (by rw [h2]; rfl),
            pySplitNL_cons_neg d a' hd h (h2' :: t2) hr]
          rfl

theorem pySplitNL_reverse (l : List Char) :
    pySplitNL l.reverse = ((pySplitNL l).map List.reverse).reverse := by
  induction l with
  | nil => rfl
  | cons c rest ih =>
    by_cases hc : c = '\n'
    · subst hc
      rw [List.reverse_cons,
        show rest.reverse ++ ['\n'] = rest.reverse ++ '\n' :: [] from rfl,
        pySplitNL_append_nl rest.reverse [], ih, pySplitNL_cons_pos rest]
      simp [pySplitNL, pySplitP]
    · rw [List.reverse_cons, pySplitNL_snoc rest.reverse c hc, ih]
      cases hr : pySplitNL rest with
      | nil => exact absurd hr (pySplitNL_ne_nil rest)
      | cons h t =>
        rw [pySplitNL_cons_neg c rest hc h t hr]
        rw [show (List.map List.reverse (h :: t)).reverse =
          (List.map List.reverse t).reverse ++ [h.reverse] from by simp]
        rw [modLast_append_single]
        simp

/-- Every line of `l` with its leading whitespace dropped is either the
whitespace-dropped form of a line of `l`, or a non-first line of `l`. -/
theorem mem_pySplitNL_dropWhile (l : List Char) (line : List Char)
    (h : line ∈ pySplitNL (l.dropWhile isPySpace)) :
    (∃ l', l' ∈ pySplitNL l ∧ line = l'.dropWhile isPySpace) ∨
      line ∈ (pySplitNL l).tail := by
  induction l with
  | nil =>
    left
    refine ⟨[], by simp [pySplitNL, pySplitP], ?_⟩
    simpa [pySplitNL, pySplitP] using h
  | cons c rest ih =>
    by_cases hw : isPySpace c = true
    · have hdw : (c :: rest).dropWhile isPySpace = rest.dropWhile isPySpace := by
        simp [List.dropWhile_cons, hw]
      rw [hdw] at h
      by_cases hc : c = '\n'
      · subst hc
        rw [pySplitNL_cons_pos rest]
        rcases ih h with ⟨l', hl', hline⟩ | hline
        · exact Or.inl ⟨l', List.mem_cons_of_mem _ hl', hline⟩
        · exact Or.inr (List.mem_of_mem_tail hline)
      · cases hr : pySplitNL rest with
        | nil => exact absurd hr (pySplitNL_ne_nil rest)
        | cons hd tl =>
          rw [pySplitNL_cons_neg c rest hc hd tl hr]
          rcases ih h with ⟨l', hl', hline⟩ | hline
          · rw [hr] at hl'
            rcases List.mem_cons.mp hl' with h1 | h1
            · left
              refine ⟨c :: hd, List.mem_cons_self _ _, ?_⟩
              rw [hline, h1]
              simp [List.dropWhile_cons, hw]
            · exact Or.inl ⟨l', List.mem_cons_of_mem _ h1, hline⟩
          · rw [hr] at hline
            right
            simpa using hline
    · have hc : c ≠ '\n' := fun hh => hw (by rw [hh]; rfl)
      have hdw : (c :: rest).dropWhile isPySpace = c :: rest := by
        simp [List.dropWhile_cons, hw]
      rw [hdw] at h
      cases hr : pySplitNL rest with
      | nil => exact absurd hr (pySplitNL_ne_nil rest)
      | cons hd tl =>
        rw [pySplitNL_cons_neg c rest hc hd tl hr] at h ⊢
        rcases List.mem_cons.mp h with h1 | h1
        · subst h1
          left
          exact ⟨c :: hd, List.mem_cons_self _ _, by simp [List.dropWhile_cons, hw]⟩
        · right
          simpa using h1

/-- Every line of `stripL z` arises from a line of `z` by dropping leading
and/or trailing whitespace. -/
theorem mem_pySplitNL_stripL (z line : List Char) (h : line ∈ pySplitNL (stripL z)) :
    ∃ l, l ∈ pySplitNL z ∧ (line = l ∨ line = l.dropWhile isPySpace ∨
      line = revDropRev l ∨ line = revDropRev (l.dropWhile isPySpace)) := by
  have hweak : ∀ (u : List Char) (m : List Char), m ∈ pySplitNL (u.dropWhile isPySpace) →
      ∃ l', l' ∈ pySplitNL u ∧ (m = l' ∨ m = l'.dropWhile isPySpace) := by
    intro u m hm
    rcases mem_pySplitNL_dropWhile u m hm with ⟨l', h1, h2⟩ | ht
    · exact ⟨l', h1, Or.inr h2⟩
    · exact ⟨m, List.mem_of_mem_tail ht, Or.inl rfl⟩
  have hs : stripL z = ((z.dropWhile isPySpace).reverse.dropWhile isPySpace).reverse := rfl
  rw [hs, pySplitNL_reverse, List.mem_reverse, List.mem_map] at h
  obtain ⟨line1, hline1, hrev⟩ := h
  obtain ⟨l1, hl1, hcase1⟩ := hweak (z.dropWhile isPySpace).reverse line1 hline1
  rw [pySplitNL_reverse, List.mem_reverse, List.mem_map] at hl1
  obtain ⟨l2, hl2, hrev2⟩ := hl1
  obtain ⟨l, hl, hcase2⟩ := hweak z l2 hl2
  refine ⟨l, hl, ?_⟩
  subst hrev
  subst hrev2
  rcases hcase1 with h1 | h1 <;> rcases hcase2 with h2 | h2 <;> rw [h1] <;> rw [h2] <;>
    simp [revDropRev]

theorem wsTokensGo_cons (acc : List Char) (c : Char) (l : List Char) :
    wsTokensGo acc (c :: l) =
      if isPySpace c then
        (if acc.isEmpty then wsTokensGo [] l else acc.reverse :: wsTokensGo [] l)
      else wsTokensGo (c :: acc) l := rfl

theorem wsTokensGo_ws_only (suf : List Char) (hsuf : ∀ x ∈ suf, isPySpace x = true) :
    ∀ acc, wsTokensGo acc suf = wsTokensGo acc [] := by
  induction suf with
  | nil => intro acc; rfl
  | cons c rest ih =>
    intro acc
    have hc := hsuf c (List.mem_cons_self _ _)
    have hrest := ih (fun x hx => hsuf x (List.mem_cons_of_mem _ hx))
    rw [wsTokensGo_cons, if_pos hc]
    by_cases ha : acc.isEmpty = true
    · rw [if_pos ha, hrest []]
      show wsTokensGo [] [] = wsTokensGo acc []
      rw [show wsTokensGo acc [] = if acc.isEmpty then [] else [acc.reverse] from rfl,
        if_pos ha]
      rfl
    · rw [if_neg ha, hrest []]
      show acc.reverse :: wsTokensGo [] [] = wsTokensGo acc []
      rw [show wsTokensGo acc [] = if acc.isEmpty then [] else [acc.reverse] from rfl,
        if_neg ha]
      rfl

theorem wsTokensGo_ws_append (suf : List Char) (hsuf : ∀ x ∈ suf, isPySpace x = true) :
    ∀ (l : List Char) (acc : List Char), wsTokensGo acc (l ++ suf) = wsTokensGo acc l := by
  intro l
  induction l with
  | nil =>
    intro acc
    exact wsTokensGo_ws_only suf hsuf acc
  | cons c rest ih =>
    intro acc
    rw [List.cons_append, wsTokensGo_cons, wsTokensGo_cons]
    by_cases hc : isPySpace c = true
    · rw [if_pos hc, if_pos hc]
      by_cases ha : acc.isEmpty = true
      · rw [if_pos ha, if_pos ha, ih []]
      · rw [if_neg ha, if_neg ha, ih []]
    · rw [if_neg hc, if_neg hc, ih (c :: acc)]

theorem wsTokens_dropWhile (l : List Char) :
    wsTokens (l.dropWhile isPySpace) = wsTokens l := by
  induction l with
  | nil => rfl
  | cons c rest ih =>
    by_cases hc : isPySpace c = true
    · rw [show (c :: rest).dropWhile isPySpace = rest.dropWhile isPySpace from
        by simp [List.dropWhile_cons, hc], ih]
      show wsTokensGo [] rest = wsTokensGo [] (c :: rest)
      rw [wsTokensGo_cons, if_pos hc]
      rfl
    · rw [show (c :: rest).dropWhile isPySpace = c :: rest from
        by simp [List.dropWhile_cons, hc]]

theorem revDropRev_decomp (l : List Char) :
    ∃ b, (∀ x ∈ b, isPySpace x = true) ∧ l = revDropRev l ++ b := by
  refine ⟨(l.reverse.takeWhile isPySpace).reverse,
    fun x hx => List.mem_takeWhile_imp (by simpa using hx), ?_⟩
  conv_lhs => rw [← List.reverse_reverse l,
    ← List.takeWhile_append_dropWhile isPySpace l.reverse]
  rw [List.reverse_append]
  rfl

theorem wsTokens_revDropRev (l : List Char) : wsTokens (revDropRev l) = wsTokens l := by
  obtain ⟨b, hb, hl⟩ := revDropRev_decomp l
  conv_rhs => rw [hl]
  exact (wsTokensGo_ws_append b hb (revDropRev l) []).symm

theorem isRatingRow_dropWhile (l : List Char) :
    isRatingRow (l.dropWhile isPySpace) = isRatingRow l := by
  unfold isRatingRow
  rw [wsTokens_dropWhile]

theorem isRatingRow_revDropRev (l : List Char) :
    isRatingRow (revDropRev l) = isRatingRow l := by
  unfold isRatingRow
  rw [wsTokens_revDropRev]

theorem stripL_dropWhile (l : List Char) :
    stripL (l.dropWhile isPySpace) = stripL l := by
  conv_rhs => rw [← List.takeWhile_append_dropWhile isPySpace l]
  exact (stripL_ws_front _ _ (fun x hx => List.mem_takeWhile_imp hx)).symm

theorem stripL_revDropRev (l : List Char) : stripL (revDropRev l) = stripL l := by
  obtain ⟨b, hb, hl⟩ := revDropRev_decomp l
  conv_rhs => rw [hl]
  exact (stripL_ws_suffix _ _ hb).symm

theorem isClumpedRow_dropWhile (l : List Char) :
    isClumpedRow (l.dropWhile isPySpace) = isClumpedRow l := by
  unfold isClumpedRow
  rw [stripL_dropWhile]

theorem isClumpedRow_revDropRev (l : List Char) :
    isClumpedRow (revDropRev l) = isClumpedRow l := by
  unfold isClumpedRow
  rw [stripL_revDropRev]

theorem containsSub_cons (pat : List Char) (c : Char) (t : List Char)
    (h : containsSub pat t = true) : containsSub pat (c :: t) = true := by
  unfold containsSub
  rw [h, Bool.or_true]

theorem containsSub_append_left (pat u t : List Char) (h : containsSub pat t = true) :
    containsSub pat (u ++ t) = true := by
  induction u with
  | nil => exact h
  | cons c u' ih => exact containsSub_cons pat c _ ih

theorem isPrefixOf_append (p l v : List Char) (h : p.isPrefixOf l = true) :
    p.isPrefixOf (l ++ v) = true := by
  rw [List.isPrefixOf_iff_prefix] at h ⊢
  exact h.trans (List.prefix_append l v)

theorem containsSub_append_right (pat t v : List Char) (h : containsSub pat t = true) :
    containsSub pat (t ++ v) = true := by
  induction t with
  | nil =>
    have hp : pat = [] := by simpa [containsSub, List.isEmpty_iff] using h
    subst hp
    cases v with
    | nil => rfl
    | cons c v' =>
      show (([] : List Char).isPrefixOf (c :: v') || containsSub [] v') = true
      simp [List.isPrefixOf_iff_prefix]
  | cons c t' ih =>
    unfold containsSub at h
    have h' : pat.isPrefixOf (c :: t') = true ∨ containsSub pat t' = true := by
      simpa using h
    rcases h' with h1 | h1
    · have := isPrefixOf_append pat (c :: t') v h1
      rw [List.cons_append]
      show (pat.isPrefixOf (c :: (t' ++ v)) || containsSub pat (t' ++ v)) = true
      rw [show (c : Char) :: (t' ++ v) = (c :: t') ++ v from rfl, this, Bool.true_or]
    · rw [List.cons_append]
      exact containsSub_cons pat c _ (ih h1)

/-- Non-noise lines stay non-noise after dropping leading whitespace. -/
theorem isNoiseLine_dropWhile (l : List Char) (h : isNoiseLine l = false) :
    isNoiseLine (l.dropWhile isPySpace) = false := by
  have hdec : l = l.takeWhile isPySpace ++ l.dropWhile isPySpace :=
    (List.takeWhile_append_dropWhile isPySpace l).symm
  unfold isNoiseLine at h ⊢
  simp only [Bool.or_eq_false_iff] at h ⊢
  obtain ⟨⟨⟨⟨h1, h2⟩, h3⟩, h4⟩, h5⟩ := h
  refine ⟨⟨⟨⟨?_, ?_⟩, ?_⟩, ?_⟩, ?_⟩
  · by_contra hcc
    rw [Bool.not_eq_false] at hcc
    have := containsSub_append_left _ (l.takeWhile isPySpace) _ hcc
    rw [← hdec] at this
    exact absurd this (Bool.eq_false_iff.mp h1)
  · by_contra hcc
    rw [Bool.not_eq_false] at hcc
    have := containsSub_append_left _ (l.takeWhile isPySpace) _ hcc
    rw [← hdec] at this
    exact absurd this (Bool.eq_false_iff.mp h2)
  · by_contra hcc
    rw [Bool.not_eq_false] at hcc
    have := containsSub_append_left _ (l.takeWhile isPySpace) _ hcc
    rw [← hdec] at this
    exact absurd this (Bool.eq_false_iff.mp h3)
  · rw [isRatingRow_dropWhile]
    exact h4
  · rw [isClumpedRow_dropWhile]
    exact h5

/-- Non-noise lines stay non-noise after dropping trailing whitespace. -/
theorem isNoiseLine_revDropRev (l : List Char) (h : isNoiseLine l = false) :
    isNoiseLine (revDropRev l) = false := by
  obtain ⟨b, hb, hdec⟩ := revDropRev_decomp l
  unfold isNoiseLine at h ⊢
  simp only [Bool.or_eq_false_iff] at h ⊢
  obtain ⟨⟨⟨⟨h1, h2⟩, h3⟩, h4⟩, h5⟩ := h
  refine ⟨⟨⟨⟨?_, ?_⟩, ?_⟩, ?_⟩, ?_⟩
  · by_contra hcc
    rw [Bool.not_eq_false] at hcc
    have := containsSub_append_right _ _ b hcc
    rw [← hdec] at this
    exact absurd this (Bool.eq_false_iff.mp h1)
  · by_contra hcc
    rw [Bool.not_eq_false] at hcc
    have := containsSub_append_right _ _ b hcc
    rw [← hdec] at this
    exact absurd this (Bool.eq_false_iff.mp h2)
  · by_contra hcc
    rw [Bool.not_eq_false] at hcc
    have := containsSub_append_right _ _ b hcc
    rw [← hdec] at this
    exact absurd this (Bool.eq_false_iff.mp h3)
  · rw [isRatingRow_revDropRev]
    exact h4
  · rw [isClumpedRow_revDropRev]
    exact h5

/-- Every line of a cleaned text fails the noise test. -/
theorem clean_text_lines_not_noise (x line : List Char)
    (h : line ∈ pySplitNL (clean_text x)) : isNoiseLine line = false := by
  unfold clean_text at h
  by_cases hx : x.isEmpty = true
  · rw [if_pos hx] at h
    have hl : line = [] := by simpa [pySplitNL, pySplitP] using h
    rw [hl]
    decide
  · rw [if_neg hx] at h
    obtain ⟨l, hl, hforms⟩ := mem_pySplitNL_stripL _ _ h
    have hmem_noise : isNoiseLine l = false := by
      cases hke : (pySplitNL x).filter (fun l => !isNoiseLine l) with
      | nil =>
        rw [hke] at hl
        have : l = [] := by simpa [pyJoinNL, pySplitNL, pySplitP] using hl
        rw [this]
        decide
      | cons k0 ks =>
        have hnn : ∀ y ∈ (pySplitNL x).filter (fun l => !isNoiseLine l), '\n' ∉ y :=
          fun y hy => mem_pySplitNL_no_nl x y (List.mem_of_mem_filter hy)
        rw [pySplitNL_pyJoinNL _ (by rw [hke]; simp) hnn] at hl
        have := List.of_mem_filter hl
        simpa using this
    rcases hforms with h1 | h1 | h1 | h1
    · rw [h1]; exact hmem_noise
    · rw [h1]; exact isNoiseLine_dropWhile l hmem_noise
    · rw [h1]; exact isNoiseLine_revDropRev l hmem_noise
    · rw [h1]; exact isNoiseLine_revDropRev _ (isNoiseLine_dropWhile l hmem_noise)

/-- C4: `clean_text` eliminates every whitespace-separated rating row and
every clumped rating row (no line of any cleaned text matches either
pattern), while a line with the rating symbols embedded in prose — the
spec's `상품 가격은 상한선` — passes through unchanged. -/
theorem C4_noise_rows :
    (∀ x line, line ∈ pySplitNL (clean_text x) →
      isRatingRow line = false ∧ isClumpedRow line = false) ∧
    clean_text (s2l "상품 가격은 상한선") = s2l "상품 가격은 상한선" := by
  constructor
  · intro x line h
    have hn := clean_text_lines_not_noise x line h
    constructor
    · by_contra hr
      rw [Bool.not_eq_false] at hr
      have : isNoiseLine line = true := by
        unfold isNoiseLine
        rw [hr]
        simp
      rw [this] at hn
      exact absurd hn (by simp)
    · by_contra hr
      rw [Bool.not_eq_false] at hr
      have : isNoiseLine line = true := by
        unfold isNoiseLine
        rw [hr]
        simp
      rw [this] at hn
      exact absurd hn (by simp)
  · decide

/-- C4 witness: a concrete text whose rating row is removed while the
ordinary line survives. -/
theorem C4_noise_rows_w :
    isRatingRow (s2l "abc") = false ∧ isClumpedRow (s2l "abc") = false :=
  C4_noise_rows.1 (s2l "abc\n상 중 하 상 중") (s2l "abc") (by decide)

/-- C6: cleaning is idempotent. -/
theorem C6_clean_idempotent (x : List Char) : clean_text (clean_text x) = clean_text x := by
  by_cases hy : (clean_text x).isEmpty = true
  · rw [List.isEmpty_iff.mp hy]
    rfl
  · have hall : ∀ line ∈ pySplitNL (clean_text x), (!isNoiseLine line) = true := by
      intro line hl
      simp [clean_text_lines_not_noise x line hl]
    conv_lhs => rw [clean_text]
    rw [if_neg hy, List.filter_eq_self.mpr hall, pyJoin_pySplit]
    unfold clean_text
    by_cases hx : x.isEmpty = true
    · rw [if_pos hx]
      rfl
    · rw [if_neg hx]
      exact stripL_idem _

/-- C5: a candidate block is kept by segmentation exactly when it contains
the literal first-section marker `1) 키워드`; concretely, a stray numbered
line (`12. Appendix`) whose span has no marker yields a candidate block that
is excluded from the segmentation results. -/
theorem C5_marker_filter :
    (∀ text b, b ∈ segmentBlocks text ↔
      b ∈ candidateBlocks text ∧ containsSub kwMarker b = true) ∧
    candidateBlocks (s2l "Intro\n1. Real\n1) 키워드\n- kw\n12. Appendix\nno marker") =
      [s2l "1. Real\n\n1) 키워드\n- kw", s2l "12. Appendix\n\nno marker"] ∧
    segmentBlocks (s2l "Intro\n1. Real\n1) 키워드\n- kw\n12. Appendix\nno marker") =
      [s2l "1. Real\n\n1) 키워드\n- kw"] := by
  refine ⟨?_, by decide, by decide⟩
  intro text b
  unfold segmentBlocks
  exact List.mem_filter

/-- C5 witness: the genuine block is kept. -/
theorem C5_marker_filter_w :
    s2l "1. Real\n\n1) 키워드\n- kw" ∈
      segmentBlocks (s2l "Intro\n1. Real\n1) 키워드\n- kw\n12. Appendix\nno marker") :=
  (C5_marker_filter.1 (s2l "Intro\n1. Real\n1) 키워드\n- kw\n12. Appendix\nno marker")
    (s2l "1. Real\n\n1) 키워드\n- kw")).mpr ⟨by decide, by decide⟩

theorem pyDigit_not_space (c : Char) (h : pyDigit c = true) : isPySpace c = false := by
  unfold isPySpace
  simp only [Bool.or_eq_false_iff, beq_eq_false_iff_ne, ne_eq]
  refine ⟨⟨⟨⟨⟨?_, ?_⟩, ?_⟩, ?_⟩, ?_⟩, ?_⟩ <;> rintro rfl <;> revert h <;> decide

theorem ne_nil_of_isEmpty_false {α : Type} (l : List α) (h : l.isEmpty = false) :
    l ≠ [] := by
  intro hl
  rw [hl] at h
  simp at h

theorem drop_takeWhile_length (p : Char → Bool) (l : List Char) :
    l.drop (l.takeWhile p).length = l.dropWhile p := by
  induction l with
  | nil => rfl
  | cons c rest ih =>
    by_cases hp : p c = true
    · rw [List.takeWhile_cons, if_pos hp, List.dropWhile_cons, if_pos hp]
      simpa using ih
    · rw [List.takeWhile_cons, if_neg hp, List.dropWhile_cons, if_neg hp]
      rfl

theorem takeWhile_append_head (p : Char → Bool) (xs : List Char) (c : Char) (ys : List Char)
    (hall : ∀ x ∈ xs, p x = true) (hc : p c = false) :
    (xs ++ c :: ys).takeWhile p = xs := by
  induction xs with
  | nil => simp [List.takeWhile_cons, hc]
  | cons a xs' ih =>
    rw [List.cons_append, List.takeWhile_cons, if_pos (hall a (List.mem_cons_self _ _)),
      ih (fun x hx => hall x (List.mem_cons_of_mem _ hx))]

theorem dropWhile_eq_self_of_head (p : Char → Bool) (l : List Char) (c : Char)
    (hc : l.head? = some c) (hp : p c = false) : l.dropWhile p = l := by
  cases l with
  | nil => rfl
  | cons a t =>
    have hac : a = c := by simpa using hc
    rw [List.dropWhile_cons, if_neg (by rw [hac, hp]; simp)]

theorem takeWhile_eq_nil_of_head (p : Char → Bool) (l : List Char) (c : Char)
    (hc : l.head? = some c) (hp : p c = false) : l.takeWhile p = [] := by
  cases l with
  | nil => rfl
  | cons a t =>
    have hac : a = c := by simpa using hc
    rw [List.takeWhile_cons, if_neg (by rw [hac, hp]; simp)]

/-- Decompose a well-formed header into digits, period, whitespace, label. -/
theorem wfHeader_parts (h : List Char) (hw : wfHeader h = true) :
    ∃ ds w lh lab', h = ds ++ '.' :: (w ++ lh :: lab') ∧ ds ≠ [] ∧
      (∀ x ∈ ds, pyDigit x = true) ∧ w ≠ [] ∧ (∀ x ∈ w, isPySpace x = true) ∧
      isPySpace lh = false ∧ (∀ x ∈ h, x ≠ '\n') ∧
      isPySpace ((lh :: lab').getLastD 'x') = false := by
  simp only [wfHeader] at hw
  cases hdrop : h.drop (h.takeWhile pyDigit).length with
  | nil => rw [hdrop] at hw; exact absurd hw (by simp)
  | cons c r =>
    rw [hdrop] at hw
    simp only [Bool.and_eq_true, beq_iff_eq, Bool.not_eq_true'] at hw
    obtain ⟨⟨⟨⟨⟨⟨hds, hc⟩, hwne⟩, hlabne⟩, hnl⟩, hlabh⟩, hlabl⟩ := hw
    subst hc
    cases hlab : r.drop (r.takeWhile isPySpace).length with
    | nil => exact absurd hlab (ne_nil_of_isEmpty_false _ hlabne)
    | cons lh lab' =>
      refine ⟨h.takeWhile pyDigit, r.takeWhile isPySpace, lh, lab', ?_,
        ne_nil_of_isEmpty_false _ hds, ?_, ne_nil_of_isEmpty_false _ hwne, ?_,
        ?_, ?_, ?_⟩
      · conv_lhs => rw [← List.takeWhile_append_dropWhile pyDigit h]
        rw [← drop_takeWhile_length pyDigit h, hdrop]
        congr 1
        congr 1
        conv_lhs => rw [← List.takeWhile_append_dropWhile isPySpace r]
        rw [← drop_takeWhile_length isPySpace r, hlab]
      · exact fun x hx => List.mem_takeWhile_imp hx
      · exact fun x hx => List.mem_takeWhile_imp hx
      · have : (r.drop (r.takeWhile isPySpace).length).headD 'x' = lh := by
          rw [hlab]; rfl
        rw [this] at hlabh
        exact hlabh
      · intro x hx
        have := List.all_eq_true.mp hnl x hx
        simpa using this
      · rw [hlab] at hlabl
        exact hlabl

theorem isEmpty_false_of_ne_nil {α : Type} (l : List α) (h : l ≠ []) :
    l.isEmpty = false := by
  cases l with
  | nil => exact absurd rfl h
  | cons a t => rfl

theorem reverse_head_getLastD (l : List Char) (a : Char) :
    (a :: l).reverse.head? = some ((a :: l).getLastD 'x') := by
  induction l generalizing a with
  | nil => rfl
  | cons b t ih =>
    rw [show (a :: b :: t).reverse = (b :: t).reverse ++ [a] from by simp,
      List.head?_append_of_ne_nil _ (by simp), ih b]
    rfl

theorem stripL_eq_self (l : List Char) (c0 cn : Char) (h0 : l.head? = some c0)
    (hn : l.reverse.head? = some cn) (hp0 : isPySpace c0 = false)
    (hpn : isPySpace cn = false) : stripL l = l := by
  unfold stripL
  rw [dropWhile_eq_self_of_head isPySpace l c0 h0 hp0,
    dropWhile_eq_self_of_head isPySpace l.reverse cn hn hpn, List.reverse_reverse]

/-- A well-formed header is its own strip. -/
theorem stripL_wfHeader (h : List Char) (hw : wfHeader h = true) : stripL h = h := by
  obtain ⟨ds, w, lh, lab', hdec, hds, hdig, hwne, hws, hlh, hnl, hlast⟩ := wfHeader_parts h hw
  cases hd : ds with
  | nil => exact absurd hd hds
  | cons d0 ds' =>
    subst hd
    apply stripL_eq_self h d0 ((lh :: lab').getLastD 'x')
    · rw [hdec]; rfl
    · rw [hdec, show (d0 :: ds') ++ '.' :: (w ++ lh :: lab') =
        ((d0 :: ds') ++ '.' :: w) ++ (lh :: lab') from by simp,
        List.reverse_append, List.head?_append_of_ne_nil _ (by simp : (lh :: lab').reverse ≠ []),
        reverse_head_getLastD]
    · exact pyDigit_not_space d0 (hdig d0 (List.mem_cons_self _ _))
    · exact hlast

/-- The captured group of the split pattern at a well-formed header followed
by a newline is exactly the header line, and the rest starts at that
newline. -/
theorem wfHeader_match (h : List Char) (hw : wfHeader h = true) (r : List Char) :
    hdrGroupMatch (h ++ '\n' :: r) = some (h, '\n' :: r) := by
  obtain ⟨ds, w, lh, lab', hdec, hds, hdig, hwne, hws, hlh, hnl, _⟩ := wfHeader_parts h hw
  cases hd : ds with
  | nil => exact absurd hd hds
  | cons d0 ds' =>
    subst hd
    have hdig0 : pyDigit d0 = true := hdig d0 (List.mem_cons_self _ _)
    have hH : h ++ '\n' :: r = (d0 :: ds') ++ '.' :: (w ++ lh :: (lab' ++ '\n' :: r)) := by
      rw [hdec]
      simp
    rw [hH]
    have e1 : ((d0 :: ds') ++ '.' :: (w ++ lh :: (lab' ++ '\n' :: r))).takeWhile isPySpace
        = [] := takeWhile_eq_nil_of_head _ _ d0 rfl (pyDigit_not_space d0 hdig0)
    have e2 : ((d0 :: ds') ++ '.' :: (w ++ lh :: (lab' ++ '\n' :: r))).dropWhile isPySpace
        = (d0 :: ds') ++ '.' :: (w ++ lh :: (lab' ++ '\n' :: r)) :=
      dropWhile_eq_self_of_head _ _ d0 rfl (pyDigit_not_space d0 hdig0)
    have e3 : ((d0 :: ds') ++ '.' :: (w ++ lh :: (lab' ++ '\n' :: r))).takeWhile pyDigit
        = d0 :: ds' := takeWhile_append_head pyDigit (d0 :: ds') '.' _ hdig (by decide)
    have e4 : ((d0 :: ds') ++ '.' :: (w ++ lh :: (lab' ++ '\n' :: r))).drop
        (d0 :: ds').length = '.' :: (w ++ lh :: (lab' ++ '\n' :: r)) := List.drop_left _ _
    have e5 : (w ++ lh :: (lab' ++ '\n' :: r)).takeWhile isPySpace = w :=
      takeWhile_append_head isPySpace w lh _ hws hlh
    have e6 : (w ++ lh :: (lab' ++ '\n' :: r)).drop w.length = lh :: (lab' ++ '\n' :: r) :=
      List.drop_left _ _
    have lab_all : ∀ x ∈ lh :: lab', (!(x == '\n')) = true := by
      intro x hx
      have hxh : x ∈ h := by
        rw [hdec]
        refine List.mem_append_right _ (List.mem_cons_of_mem _ (List.mem_append_right _ hx))
      simpa using hnl x hxh
    have e7 : (lh :: (lab' ++ '\n' :: r)).takeWhile (fun x => !(x == '\n')) = lh :: lab' := by
      have := takeWhile_append_head (fun x => !(x == '\n')) (lh :: lab') '\n' r lab_all
        (by decide)
      simpa using this
    have e8 : (lh :: (lab' ++ '\n' :: r)).drop (lh :: lab').length = '\n' :: r := by
      rw [show lh :: (lab' ++ '\n' :: r) = (lh :: lab') ++ '\n' :: r from by simp]
      exact List.drop_left _ _
    simp only [hdrGroupMatch, e1, e2, e3, e4, e5, e6, e7, e8,
      isEmpty_false_of_ne_nil w hwne, List.isEmpty_cons, Bool.false_eq_true, if_false]
    rw [hdec]
    simp

/-- Scanning a segment where the split pattern never fires, followed by text
where it fires, finds the match exactly at the junction. -/
theorem findSplit_scan (p : List Char) (rest : List Char) (cap after : List Char)
    (hclean : ∀ s, s <:+ p → s ≠ [] → matchSplit (s ++ rest) = none)
    (hmatch : matchSplit rest = some (cap, after)) :
    findSplit (p ++ rest) = some (p, cap, after) := by
  induction p with
  | nil =>
    cases rest with
    | nil => exact absurd hmatch (by simp [matchSplit])
    | cons c r' =>
      show findSplit (c :: r') = some ([], cap, after)
      unfold findSplit
      rw [hmatch]
  | cons c p' ih =>
    show findSplit (c :: (p' ++ rest)) = some (c :: p', cap, after)
    unfold findSplit
    rw [show matchSplit (c :: (p' ++ rest)) = none from
      hclean (c :: p') (List.suffix_refl _) (by simp),
      ih (fun s hs hne => hclean s (hs.trans (List.suffix_cons c p')) hne)]

theorem tailText_cons (h b : List Char) (es : List (List Char × List Char)) :
    tailText ((h, b) :: es) = '\n' :: (h ++ '\n' :: (b ++ tailText es)) := by
  show entryText (h, b) ++ tailText es = _
  simp [entryText]

/-- The split of a well-formed document: each well-formed entry produces its
header as a captured part and its body (with the preceding newline) as the
following gap. -/
theorem reSplit_doc : ∀ (es : List (List Char × List Char)) (g : List Char) (fuel : Nat),
    (tailText es).length ≤ fuel →
    gapClean ('\n' :: g) (tailText es) = true →
    wfEntriesB es = true →
    reSplitGo fuel (('\n' :: g) ++ tailText es) = ('\n' :: g) :: partsOf es := by
  intro es
  induction es with
  | nil =>
    intro g fuel _ hgap _
    have hno : findSplit ('\n' :: g) = none := by
      apply findSplit_eq_none
      intro s hs
      cases s with
      | nil => rfl
      | cons c s' =>
        have := List.all_eq_true.mp hgap (c :: s') ((List.mem_tails _ _).mpr hs)
        simp only [tailText, List.map_nil, List.flatten_nil, List.append_nil] at this
        simpa [Option.isNone_iff_eq_none] using this
    rw [show tailText [] = [] from rfl, List.append_nil]
    cases fuel with
    | zero => rfl
    | succ f =>
      unfold reSplitGo
      rw [hno]
      rfl
  | cons e es' ih =>
    intro g fuel hfuel hgap hwf
    obtain ⟨h, b⟩ := e
    have hwf' : wfHeader h = true ∧ containsSub kwMarker b = true ∧
        gapClean ('\n' :: b) (tailText es') = true ∧ wfEntriesB es' = true := by
      simpa [wfEntriesB, and_assoc] using hwf
    have hms : matchSplit ('\n' :: (h ++ '\n' :: (b ++ tailText es'))) =
        some (h, '\n' :: (b ++ tailText es')) := by
      show (if ('\n' : Char) = '\n' then hdrGroupMatch (h ++ '\n' :: (b ++ tailText es'))
        else none) = _
      rw [if_pos rfl]
      exact wfHeader_match h hwf'.1 _
    have hfind : findSplit (('\n' :: g) ++ tailText ((h, b) :: es')) =
        some ('\n' :: g, h, '\n' :: (b ++ tailText es')) := by
      rw [tailText_cons]
      apply findSplit_scan
      · intro s hs hne
        have := List.all_eq_true.mp hgap s ((List.mem_tails _ _).mpr hs)
        rw [tailText_cons] at this
        cases s with
        | nil => exact absurd rfl hne
        | cons c s' => simpa [Option.isNone_iff_eq_none] using this
      · exact hms
    have hlen1 : 1 ≤ fuel := by
      refine le_trans ?_ hfuel
      rw [tailText_cons]
      simp
    obtain ⟨f, rfl⟩ : ∃ f, fuel = f + 1 := ⟨fuel - 1, by omega⟩
    show reSplitGo (f + 1) (('\n' :: g) ++ tailText ((h, b) :: es')) = _
    unfold reSplitGo
    rw [hfind]
    have hrec : reSplitGo f (('\n' :: b) ++ tailText es') = ('\n' :: b) :: partsOf es' := by
      apply ih b f ?_ hwf'.2.2.1 hwf'.2.2.2
      have : (tailText ((h, b) :: es')).length ≤ f + 1 := hfuel
      rw [tailText_cons] at this
      simp only [List.length_cons, List.length_append] at this
      omega
    show ('\n' :: g) :: h :: reSplitGo f (('\n' :: b) ++ tailText es') =
      ('\n' :: g) :: partsOf ((h, b) :: es')
    rw [hrec]
    rfl

theorem wfEntriesB_mem : ∀ (es : List (List Char × List Char)) (e : List Char × List Char),
    e ∈ es → wfEntriesB es = true →
    wfHeader e.1 = true ∧ containsSub kwMarker e.2 = true := by
  intro es
  induction es with
  | nil => intro e he _; exact absurd he (List.not_mem_nil e)
  | cons e0 es' ih =>
    intro e he hwf
    have hwf' : wfHeader e0.1 = true ∧ containsSub kwMarker e0.2 = true ∧
        gapClean ('\n' :: e0.2) (tailText es') = true ∧ wfEntriesB es' = true := by
      obtain ⟨h0, b0⟩ := e0
      simpa [wfEntriesB, and_assoc] using hwf
    rcases List.mem_cons.mp he with h1 | h1
    · rw [h1]
      exact ⟨hwf'.1, hwf'.2.1⟩
    · exact ih e h1 hwf'.2.2.2

theorem candBlocks_partsOf : ∀ es : List (List Char × List Char), wfEntriesB es = true →
    candBlocks (partsOf es) = es.map (fun e => e.1 ++ '\n' :: '\n' :: e.2) := by
  intro es
  induction es with
  | nil => intro _; rfl
  | cons e es' ih =>
    intro hwf
    obtain ⟨h, b⟩ := e
    have hwf' : wfHeader h = true ∧ containsSub kwMarker b = true ∧
        gapClean ('\n' :: b) (tailText es') = true ∧ wfEntriesB es' = true := by
      simpa [wfEntriesB, and_assoc] using hwf
    show candBlocks (h :: ('\n' :: b) :: partsOf es') = _
    rw [show candBlocks (h :: ('\n' :: b) :: partsOf es') =
      (stripL h ++ '\n' :: ('\n' :: b)) :: candBlocks (partsOf es') from rfl,
      stripL_wfHeader h hwf'.1, ih hwf'.2.2.2]
    rfl

/-- C2: on a well-formed document — preamble and bodies at whose positions
the split pattern never fires, every header well-formed, every body
containing the first-section marker — segmentation returns exactly one block
per entry, in document order, each starting with its header line. -/
theorem C2_segmentation (pre : List Char) (es : List (List Char × List Char))
    (hdoc : wfDoc pre es = true) :
    segmentBlocks (docText pre es) = es.map (fun e => e.1 ++ '\n' :: '\n' :: e.2) := by
  have hdoc' : gapClean ('\n' :: pre) (tailText es) = true ∧ wfEntriesB es = true := by
    simpa [wfDoc] using hdoc
  have hparts : reSplitHdr ('\n' :: docText pre es) = ('\n' :: pre) :: partsOf es := by
    unfold reSplitHdr docText
    rw [show ('\n' :: (pre ++ tailText es)) = ('\n' :: pre) ++ tailText es from rfl]
    apply reSplit_doc es pre _ ?_ hdoc'.1 hdoc'.2
    simp only [List.length_cons, List.length_append]
    omega
  unfold segmentBlocks candidateBlocks
  rw [hparts]
  show (candBlocks (partsOf es)).filter (fun b => containsSub kwMarker b) = _
  rw [candBlocks_partsOf es hdoc'.2]
  apply List.filter_eq_self.mpr
  intro b hb
  rw [List.mem_map] at hb
  obtain ⟨e, he, rfl⟩ := hb
  have hm := (wfEntriesB_mem es e he hdoc'.2).2
  rw [show e.1 ++ '\n' :: '\n' :: e.2 = (e.1 ++ ['\n', '\n']) ++ e.2 from by simp]
  exact containsSub_append_left _ _ _ hm

/-- C2 witness: a concrete two-entry document. -/
theorem C2_segmentation_w :
    segmentBlocks (docText (s2l "Intro text")
        [(s2l "1. Card One", s2l "1) 키워드\n- a"), (s2l "2. Card Two", s2l "1) 키워드\n- b")]) =
      [s2l "1. Card One\n\n1) 키워드\n- a", s2l "2. Card Two\n\n1) 키워드\n- b"] := by
  rw [C2_segmentation (s2l "Intro text")
    [(s2l "1. Card One", s2l "1) 키워드\n- a"), (s2l "2. Card Two", s2l "1) 키워드\n- b")]
    (by decide)]
  decide
